import Mathlib

set_option maxHeartbeats 1000000
set_option maxRecDepth 8000

/-!
# Verification of the voltdrive-rag retrieval pipeline

A shallow embedding of the repository's core functions over `List Char`
(strings) and `ℚ` (scores):

* `lib/rag.ts` — `expandQuery`, `calculateKeywordRelevance`,
  `rerankResults`, `extractCleanContent`, `buildContext`,
  `buildSystemPrompt`, `performRAG` (post-retrieval part);
* `scripts/ingest-documents.ts` — `chunkTextSemantic`,
  `enrichChunkWithContext`, `ingestDocuments` (pure skeleton over the
  external file-system/embedding collaborators);
* `supabase-setup.sql` — `match_documents`.

JavaScript strings are modelled as `List Char`, numbers occurring in
scores as `ℚ`.  JavaScript's stable `Array.prototype.sort` is modelled
by a stable insertion sort (any stable sort agrees with it on a total
preorder comparator).
-/

/-! ## Character classes (the ASCII fragment of JS `\s` and friends) -/

/-- JS whitespace (`\s`, `trim`): the ASCII members. -/
def isWS (c : Char) : Bool :=
  c = ' ' || c = '\t' || c = '\n' || c = '\r' || c = '\x0b' || c = '\x0c'

/-- Sentence-terminal punctuation of the chunker's split regex `[.!?]`. -/
def isTerm (c : Char) : Bool :=
  c = '.' || c = '!' || c = '?'

/-- JS `toLowerCase` (ASCII fragment). -/
def lowerStr (s : List Char) : List Char := s.map Char.toLower

/-! ## Generic string helpers shared by the embedded functions -/

/-- JS `hay.includes(needle)`: substring test by scanning suffixes. -/
def includesB (needle : List Char) : List Char → Bool
  | [] => needle.isEmpty
  | c :: rest => needle.isPrefixOf (c :: rest) || includesB needle rest

theorem includesB_iff (n h : List Char) : includesB n h = true ↔ n <:+: h := by
  induction h with
  | nil =>
    simp [includesB, List.isEmpty_iff]
  | cons c rest ih =>
    simp only [includesB, Bool.or_eq_true, List.isPrefixOf_iff_prefix, ih]
    exact List.infix_cons_iff.symm

/-! ## `calculateKeywordRelevance` (lib/rag.ts, lines 78–114) -/

/-- The stop-word set of `calculateKeywordRelevance` (lib/rag.ts lines 80–89). -/
def stopWords : List (List Char) :=
  [ "the", "a", "an", "and", "or", "but", "in", "on", "at", "to", "for",
    "of", "with", "by", "from", "as", "is", "was", "are", "been", "be",
    "have", "has", "had", "do", "does", "did", "will", "would", "could",
    "should", "may", "might", "can", "about", "into", "through", "during",
    "before", "after", "above", "below", "between", "under", "again",
    "further", "then", "once", "here", "there", "when", "where", "why",
    "how", "all", "both", "each", "few", "more", "most", "other", "some",
    "such", "only", "own", "same", "so", "than", "too", "very", "just"
  ].map String.data

/-- `l.dropWhile isWS`: consume a whitespace run. -/
def dropWS (l : List Char) : List Char := l.dropWhile isWS

/-- Does the list start with a whitespace character? -/
def headIsWS : List Char → Bool
  | [] => false
  | c :: _ => isWS c

/-- JS `s.split(/\s+/)` as a single left-to-right pass.  `inGap = true`
means we are inside a whitespace run (the current piece has already been
emitted; `cur` is `[]` there).  A leading run yields a leading empty
piece and a trailing run a trailing empty piece, exactly as in JS. -/
def splitWSCore (inGap : Bool) (cur : List Char) : List Char → List (List Char)
  | [] => [cur.reverse]
  | c :: rest =>
    if inGap then
      if isWS c then splitWSCore true cur rest
      else splitWSCore false [c] rest
    else
      if isWS c then cur.reverse :: splitWSCore true [] rest
      else splitWSCore false (c :: cur) rest

def splitWS (s : List Char) : List (List Char) := splitWSCore false [] s

/-- The token list of `calculateKeywordRelevance`:
`query.toLowerCase().split(/\s+/).filter(w => w.length > 2 && !stopWords.has(w))`. -/
def queryTokens (query : List Char) : List (List Char) :=
  (splitWS (lowerStr query)).filter
    (fun w => decide (w.length > 2) && !(stopWords.contains w))

/-- The per-token contribution of the match loop (lib/rag.ts lines 102–108):
`1` on the exact branch, `1/2` on the partial branch, `0` otherwise.
The loop's two counters sum exactly these contributions. -/
def tokenScore (contentLower w : List Char) : ℚ :=
  if includesB (' ' :: (w ++ [' '])) contentLower
      || w.isPrefixOf contentLower || w.isSuffixOf contentLower then 1
  else if includesB w contentLower then 1/2
  else 0

/-- `Math.min(x, 1.0)`: cap a score at `1`. -/
def capAtOne (x : ℚ) : ℚ := if x ≤ 1 then x else 1

/-- `calculateKeywordRelevance` (lib/rag.ts lines 78–114): the average of
the per-token scores over the token count (`0` with no tokens), capped at
`1.0`. -/
def calculateKeywordRelevance (query content : List Char) : ℚ :=
  capAtOne (if (queryTokens query).length > 0
    then ((queryTokens query).map (tokenScore (lowerStr content))).sum
          / ((queryTokens query).length : ℚ)
    else 0)

theorem tokenScore_nonneg (c w : List Char) : 0 ≤ tokenScore c w := by
  unfold tokenScore
  split
  · norm_num
  · split <;> norm_num

theorem tokenScore_le_one (c w : List Char) : tokenScore c w ≤ 1 := by
  unfold tokenScore
  split
  · norm_num
  · split <;> norm_num

/-- C10 (claim): for every non-empty query and content, the relevance is in
`[0, 1]`, and it is `0` whenever no query token survives the length/stop-word
filter. -/
theorem claim10_keyword_relevance_bounds (q c : List Char) (hq : q ≠ []) (hc : c ≠ []) :
    0 ≤ calculateKeywordRelevance q c ∧ calculateKeywordRelevance q c ≤ 1 ∧
      (queryTokens q = [] → calculateKeywordRelevance q c = 0) := by
  have hcap_nonneg : ∀ x : ℚ, 0 ≤ x → 0 ≤ capAtOne x := by
    intro x hx
    unfold capAtOne
    split
    · exact hx
    · exact zero_le_one
  have hcap_le : ∀ x : ℚ, capAtOne x ≤ 1 := by
    intro x
    unfold capAtOne
    split
    · assumption
    · exact le_refl 1
  refine ⟨?_, ?_, ?_⟩
  · unfold calculateKeywordRelevance
    apply hcap_nonneg
    split
    · apply div_nonneg _ (by positivity)
      exact List.sum_nonneg (by
        intro x hx
        rcases List.mem_map.mp hx with ⟨w, _, rfl⟩
        exact tokenScore_nonneg _ _)
    · exact le_refl 0
  · exact hcap_le _
  · intro h0
    unfold calculateKeywordRelevance
    rw [h0]
    simp [capAtOne]

/-- C10 witness: concrete instance; the query "the of" has no surviving token
and scores `0` on content "abc". -/
theorem claim10_witness :
    queryTokens ("the of".data) = [] ∧
      calculateKeywordRelevance ("the of".data) ("abc".data) = 0 :=
  ⟨by decide,
    (claim10_keyword_relevance_bounds ("the of".data) ("abc".data)
      (by decide) (by decide)).2.2 (by decide)⟩

/-! ## `expandQuery` (lib/rag.ts, lines 50–72) -/

/-- JS `s.split(sep)` for a one-character separator (every occurrence
splits; empty pieces are kept). -/
def splitCharCore (sep : Char) (cur : List Char) : List Char → List (List Char)
  | [] => [cur.reverse]
  | c :: rest =>
    if c = sep then cur.reverse :: splitCharCore sep [] rest
    else splitCharCore sep (c :: cur) rest

def splitChar (sep : Char) (s : List Char) : List (List Char) := splitCharCore sep [] s

/-- `[...new Set(arr)]`: deduplicate keeping the first occurrence of each
element, in insertion order. -/
def dedupFirstAux (seen : List (List Char)) : List (List Char) → List (List Char)
  | [] => []
  | a :: l => if a ∈ seen then dedupFirstAux seen l else a :: dedupFirstAux (a :: seen) l

def dedupFirst (l : List (List Char)) : List (List Char) := dedupFirstAux [] l

/-- The `QUERY_EXPANSIONS` dictionary (lib/rag.ts lines 9–45), key/value
pairs in source (insertion) order. -/
def QUERY_EXPANSIONS : List (List Char × List Char) :=
  [ ("warranty", "warranty coverage guarantee protection insurance policy claim repair"),
    ("guarantee", "warranty guarantee coverage protection assurance"),
    ("start", "start ignition power on boot activate turn startup launch"),
    ("won't start", "not starting no power dead battery ignition failure"),
    ("power", "power energy electrical battery charge current"),
    ("charge", "charging battery power electric recharge plug cable station"),
    ("charging", "charging charge recharge battery power plug station"),
    ("battery", "battery charge power energy capacity cell pack"),
    ("range", "range distance mileage efficiency driving capacity"),
    ("distance", "range distance mileage travel driving"),
    ("efficiency", "efficiency range economy consumption performance"),
    ("maintenance", "maintenance service repair care upkeep inspection"),
    ("service", "service maintenance repair check inspection care"),
    ("problem", "problem issue error fault trouble failure malfunction"),
    ("error", "error problem issue fault warning message trouble"),
    ("issue", "issue problem error trouble fault concern"),
    ("performance", "performance speed acceleration power efficiency capability"),
    ("speed", "speed performance acceleration fast velocity"),
    ("price", "price cost pricing fee charge payment rate"),
    ("cost", "cost price pricing fee expense payment")
  ].map (fun kv => (kv.1.data, kv.2.data))

/-- The expansion-term pool accumulated by the loop over the dictionary
(lib/rag.ts lines 55–61): for each key that is a (case-insensitive)
substring of the query, the first 5 space-separated terms of its
expansion string are appended. -/
def expansionTerms (query : List Char) : List (List Char) :=
  QUERY_EXPANSIONS.foldl (fun acc kv =>
    if includesB (lowerStr kv.1) (lowerStr query) then acc ++ (splitChar ' ' kv.2).take 5
    else acc) []

/-- `expandQuery` (lib/rag.ts lines 50–72). -/
def expandQuery (query : List Char) : List Char :=
  if ((dedupFirst (expansionTerms query)).take 8).length > 0 then
    query ++ ' ' :: List.intercalate [' '] ((dedupFirst (expansionTerms query)).take 8)
  else query

theorem foldl_append_filter {α β : Type} (P : α → Bool) (f : α → List β) :
    ∀ (l : List α) (acc : List β),
      l.foldl (fun acc kv => if P kv then acc ++ f kv else acc) acc
        = acc ++ (l.filter P).flatMap f := by
  intro l
  induction l with
  | nil => intro acc; simp
  | cons a l ih =>
    intro acc
    by_cases h : P a = true <;>
      simp [List.filter_cons, h, ih, List.append_assoc]

theorem dedupFirstAux_nodup :
    ∀ (l seen : List (List Char)),
      (dedupFirstAux seen l).Nodup ∧ ∀ a ∈ dedupFirstAux seen l, a ∉ seen := by
  intro l
  induction l with
  | nil =>
    intro seen
    exact ⟨List.nodup_nil, by intro a ha; simp [dedupFirstAux] at ha⟩
  | cons a l ih =>
    intro seen
    by_cases h : a ∈ seen
    · rw [dedupFirstAux, if_pos h]
      exact ih seen
    · rw [dedupFirstAux, if_neg h]
      refine ⟨?_, ?_⟩
      · refine List.Nodup.cons ?_ (ih (a :: seen)).1
        intro hmem
        exact absurd (List.mem_cons_self a seen) ((ih (a :: seen)).2 a hmem)
      · intro b hb
        rcases List.mem_cons.mp hb with rfl | hb'
        · exact h
        · intro hbseen
          exact absurd (List.mem_cons_of_mem a hbseen) ((ih (a :: seen)).2 b hb')

/-- C9: full characterisation of `expandQuery`: the pool takes at most 5
terms per matched trigger (a trigger matches iff its lowercase form is a
substring of the lowercased query), is deduplicated first-seen-first and
capped at 8 terms; the result is the query followed by one space and the
space-joined capped terms, or the query unchanged when no trigger matches. -/
theorem claim9_expand_query (q : List Char) :
    (expansionTerms q =
      (QUERY_EXPANSIONS.filter
        (fun kv => includesB (lowerStr kv.1) (lowerStr q))).flatMap
          (fun kv => (splitChar ' ' kv.2).take 5)) ∧
    ((dedupFirst (expansionTerms q)).take 8).length ≤ 8 ∧
    ((dedupFirst (expansionTerms q)).take 8).Nodup ∧
    (expandQuery q =
      if (dedupFirst (expansionTerms q)).take 8 = [] then q
      else q ++ ' ' :: List.intercalate [' '] ((dedupFirst (expansionTerms q)).take 8)) ∧
    ((∀ kv ∈ QUERY_EXPANSIONS, ¬ lowerStr kv.1 <:+: lowerStr q) → expandQuery q = q) := by
  have hchar : expansionTerms q =
      (QUERY_EXPANSIONS.filter
        (fun kv => includesB (lowerStr kv.1) (lowerStr q))).flatMap
          (fun kv => (splitChar ' ' kv.2).take 5) :=
    foldl_append_filter _ _ QUERY_EXPANSIONS []
  refine ⟨hchar, List.length_take_le _ _, ?_, ?_, ?_⟩
  · exact ((dedupFirstAux_nodup (expansionTerms q) []).1).sublist
      (List.take_sublist 8 (dedupFirst (expansionTerms q)))
  · unfold expandQuery
    rcases eq_or_ne ((dedupFirst (expansionTerms q)).take 8) [] with h | h
    · rw [if_neg, if_pos h]
      simp [h]
    · rw [if_pos (by simpa [List.length_pos] using h), if_neg h]
  · intro hnone
    have hfilter : QUERY_EXPANSIONS.filter
        (fun kv => includesB (lowerStr kv.1) (lowerStr q)) = [] := by
      apply List.filter_eq_nil_iff.mpr
      intro kv hkv
      intro hinc
      exact hnone kv hkv ((includesB_iff _ _).mp hinc)
    have hpool : expansionTerms q = [] := by rw [hchar, hfilter]; rfl
    unfold expandQuery
    rw [hpool]
    simp [dedupFirst, dedupFirstAux]

/-- C9 witness: the query "hello" matches no trigger and is returned
unchanged. -/
theorem claim9_witness :
    (∀ kv ∈ QUERY_EXPANSIONS, ¬ lowerStr kv.1 <:+: lowerStr ("hello".data)) ∧
      expandQuery ("hello".data) = "hello".data :=
  ⟨by decide, (claim9_expand_query ("hello".data)).2.2.2.2 (by decide)⟩

/-! ## Claim C2: per-token scoring of `calculateKeywordRelevance` -/

/-- A word character, for the spec's notion of a word boundary. -/
def isWordChar (c : Char) : Bool := c.isAlphanum

/-- Modelled from the claim's words (not from the source): the token `w`
occurs in `c` at a word boundary — any occurrence whose neighbours (when
present) are non-word characters, e.g. adjacent punctuation, start/end of
the string, or a newline. -/
def occursAtWordBoundary (w c : List Char) : Prop :=
  ∃ pre post, c = pre ++ w ++ post ∧
    (pre = [] ∨ ∃ d, pre.getLast? = some d ∧ isWordChar d = false) ∧
    (post = [] ∨ ∃ d, post.head? = some d ∧ isWordChar d = false)

/-- C2 counterexample: the single surviving token "warranty" occurs at a
word boundary in "x warranty, y" (comma-adjacent), so per the claim it
should score `+1` and the relevance should be `1`; the code's exact-match
test requires spaces on both sides (or string start/end) and yields the
substring score `1/2` instead. -/
theorem claim2_counterexample :
    occursAtWordBoundary ("warranty".data) ("x warranty, y".data) ∧
      queryTokens ("warranty".data) = ["warranty".data] ∧
      calculateKeywordRelevance ("warranty".data) ("x warranty, y".data) = 1/2 := by
  have hq : queryTokens ("warranty".data) = ["warranty".data] := by decide
  have hb1 : (includesB (' ' :: ("warranty".data ++ [' ']))
      (lowerStr ("x warranty, y".data))
      || ("warranty".data).isPrefixOf (lowerStr ("x warranty, y".data))
      || ("warranty".data).isSuffixOf (lowerStr ("x warranty, y".data))) = false := by decide
  have hb2 : includesB ("warranty".data) (lowerStr ("x warranty, y".data)) = true := by decide
  have ht : tokenScore (lowerStr ("x warranty, y".data)) ("warranty".data) = 1/2 := by
    unfold tokenScore
    rw [hb1, hb2]
    norm_num
  refine ⟨⟨"x ".data, ", y".data, by decide, ?_, ?_⟩, hq, ?_⟩
  · exact Or.inr ⟨' ', by decide, by decide⟩
  · exact Or.inr ⟨',', by decide, by decide⟩
  · unfold calculateKeywordRelevance
    rw [hq]
    simp only [List.map, List.sum_cons, List.sum_nil, List.length_cons, List.length_nil, ht]
    norm_num [capAtOne]

/-- The exact-match condition of the loop (spaces on both sides, or the
content starts or ends with the token), expressed on the `Prop` side. -/
def ExactPos (w L : List Char) : Prop :=
  (' ' :: (w ++ [' '])) <:+: L ∨ w <+: L ∨ w <:+ L

theorem exact_cond_iff (w L : List Char) :
    (includesB (' ' :: (w ++ [' '])) L || w.isPrefixOf L || w.isSuffixOf L) = true
      ↔ ExactPos w L := by
  simp [ExactPos, includesB_iff, List.isPrefixOf_iff_prefix, List.isSuffixOf_iff_suffix,
    or_assoc]

theorem ExactPos.isInfix {w L : List Char} (h : ExactPos w L) : w <:+: L := by
  rcases h with h | h | h
  · exact List.IsInfix.trans ⟨[' '], [' '], by simp⟩ h
  · exact h.isInfix
  · exact h.isInfix

/-- The three mutually exclusive outcomes of the match loop for one token. -/
theorem tokenScore_char (w L : List Char) :
    (ExactPos w L ∧ tokenScore L w = 1) ∨
    (¬ ExactPos w L ∧ w <:+: L ∧ tokenScore L w = 1/2) ∨
    (¬ w <:+: L ∧ tokenScore L w = 0) := by
  cases hb : (includesB (' ' :: (w ++ [' '])) L || w.isPrefixOf L || w.isSuffixOf L) with
  | true =>
    left
    refine ⟨(exact_cond_iff w L).mp hb, ?_⟩
    unfold tokenScore
    rw [hb]
    simp
  | false =>
    have hnb : ¬ ExactPos w L := by
      intro h
      rw [(exact_cond_iff w L).mpr h] at hb
      simp at hb
    cases hc : includesB w L with
    | true =>
      right; left
      refine ⟨hnb, (includesB_iff w L).mp hc, ?_⟩
      unfold tokenScore
      rw [hb, hc]
      norm_num
    | false =>
      right; right
      refine ⟨?_, ?_⟩
      · intro hin
        rw [(includesB_iff w L).mpr hin] at hc
        simp at hc
      · unfold tokenScore
        rw [hb, hc]
        norm_num

theorem tokenScore_eq_one_iff (w L : List Char) :
    tokenScore L w = 1 ↔ ExactPos w L := by
  rcases tokenScore_char w L with ⟨h1, h2⟩ | ⟨h1, _, h3⟩ | ⟨h1, h2⟩
  · simp [h1, h2]
  · rw [h3]
    simp [h1]
  · rw [h2]
    have : ¬ ExactPos w L := fun h => h1 h.isInfix
    simp [this]

theorem tokenScore_eq_half_iff (w L : List Char) :
    tokenScore L w = 1/2 ↔ (w <:+: L ∧ ¬ ExactPos w L) := by
  rcases tokenScore_char w L with ⟨h1, h2⟩ | ⟨h1, h2, h3⟩ | ⟨h1, h2⟩
  · rw [h2]
    simp [h1]
  · simp [h1, h2, h3]
  · rw [h2]
    simp [h1]

theorem tokenScore_eq_zero_iff (w L : List Char) :
    tokenScore L w = 0 ↔ ¬ w <:+: L := by
  rcases tokenScore_char w L with ⟨h1, h2⟩ | ⟨h1, h2, h3⟩ | ⟨h1, h2⟩
  · rw [h2]
    simp [h1.isInfix]
  · rw [h3]
    simp [h2]
  · simp [h1, h2]

/-- C2 (amended): for every query token that survives stop-word and length
filtering, the match loop scores it `+1` exactly when it occurs between two
literal spaces in the lowercased content, or at its very start, or at its
very end; `+1/2` exactly when it occurs as a substring but in none of those
three positions; and `0` exactly when it does not occur at all.  The
relevance is the capped average of these per-token scores. -/
theorem claim2_amended_token_scoring (q c w : List Char) (hw : w ∈ queryTokens q) :
    (tokenScore (lowerStr c) w = 1 ↔ ExactPos w (lowerStr c)) ∧
    (tokenScore (lowerStr c) w = 1/2 ↔
        (w <:+: lowerStr c ∧ ¬ ExactPos w (lowerStr c))) ∧
    (tokenScore (lowerStr c) w = 0 ↔ ¬ w <:+: lowerStr c) ∧
    calculateKeywordRelevance q c =
      (((queryTokens q).map (tokenScore (lowerStr c))).sum)
        / ((queryTokens q).length : ℚ) := by
  have hne : queryTokens q ≠ [] := by
    intro h0
    rw [h0] at hw
    exact absurd hw (List.not_mem_nil w)
  have hlen : (queryTokens q).length > 0 := List.length_pos.mpr hne
  refine ⟨tokenScore_eq_one_iff w _, tokenScore_eq_half_iff w _,
    tokenScore_eq_zero_iff w _, ?_⟩
  have hsum : (((queryTokens q).map (tokenScore (lowerStr c))).sum)
      ≤ ((queryTokens q).length : ℚ) := by
    have := List.sum_le_card_nsmul ((queryTokens q).map (tokenScore (lowerStr c))) 1
      (by
        intro x hx
        rcases List.mem_map.mp hx with ⟨v, _, rfl⟩
        exact tokenScore_le_one _ _)
    simpa using this
  unfold calculateKeywordRelevance
  rw [if_pos hlen]
  unfold capAtOne
  rw [if_pos (div_le_one_of_le₀ hsum (by positivity))]

/-- C2 witness: "warranty" survives filtering for the query "covered
warranty" and scores `+1` on the content "a warranty b" (space-bounded). -/
theorem claim2_witness :
    ("warranty".data ∈ queryTokens ("covered warranty".data)) ∧
      tokenScore (lowerStr ("a warranty b".data)) ("warranty".data) = 1 :=
  ⟨by decide,
    (claim2_amended_token_scoring ("covered warranty".data) ("a warranty b".data)
        ("warranty".data) (by decide)).1.mpr (Or.inl (by decide))⟩

/-! ## Enrichment headers and their removal (claims C5, C4, C7)

`enrichChunkWithContext` (scripts/ingest-documents.ts lines 89–117) and
`extractCleanContent` (lib/rag.ts lines 145–151). -/

/-- JS `trim`: drop whitespace from both ends. -/
def trimStr (s : List Char) : List Char :=
  ((s.dropWhile isWS).reverse.dropWhile isWS).reverse

/-- An ECMAScript LineTerminator (ASCII fragment): in a multiline regex
`^` anchors at the start of the string and right after any of these, and
`.` matches none of them. -/
def isLineBreak (c : Char) : Bool := c = '\n' || c = '\r'

/-- The effect of the global multiline replace of `^<tag>.*?\]\n` with the
empty string: the string is a sequence of line-break-free segments, each
ended by `'\n'`, by `'\r'`, or by the end of the string; every segment
start is a `^` anchor, and a match is exactly a matching segment together
with a terminating `'\n'` — the pattern's `.*?` cannot cross a line break
and its final `\n` is a literal, so a `'\r'`-ended segment and the final
segment are never removed, while `^` does anchor after a `'\r'`. -/
def removeLines (p : List Char → Bool) (cur : List Char) : List Char → List Char
  | [] => cur.reverse
  | c :: rest =>
    if c = '\n' then
      if p cur.reverse then removeLines p [] rest
      else cur.reverse ++ '\n' :: removeLines p [] rest
    else if c = '\r' then cur.reverse ++ '\r' :: removeLines p [] rest
    else removeLines p (c :: cur) rest

def stripLines (p : List Char → Bool) (s : List Char) : List Char := removeLines p [] s

/-- The string cut into its line-break-free segments (at `'\n'` and `'\r'`
alike) — the spans on which the multiline `^…\]\n` patterns can act. -/
def splitBreaksCore (cur : List Char) : List Char → List (List Char)
  | [] => [cur.reverse]
  | c :: rest =>
    if isLineBreak c then cur.reverse :: splitBreaksCore [] rest
    else splitBreaksCore (c :: cur) rest

def splitSegments (s : List Char) : List (List Char) := splitBreaksCore [] s

/-- A segment matches the pattern `^\[…:.*?\]\n` (up to its newline)
exactly when it starts with the tag, ends with `]`, and contains no line
break: `.` matches neither `'\n'` nor `'\r'`, and the lazy `.*?` extends
to the `]` that is followed by the segment's newline. -/
def matchesTagLine (tag line : List Char) : Bool :=
  tag.isPrefixOf line && decide (line.getLast? = some ']')
    && !(line.contains '\n') && !(line.contains '\r')

def sourceTagStr : List Char := "[Source:".data

def sectionTagStr : List Char := "[Section:".data

/-- `extractCleanContent` (lib/rag.ts lines 145–151): strip `[Source: …]`
lines, then `[Section: …]` lines, then trim. -/
def extractCleanContent (enrichedContent : List Char) : List Char :=
  trimStr (stripLines (matchesTagLine sectionTagStr)
    (stripLines (matchesTagLine sourceTagStr) enrichedContent))

/-- The `[Source: <doc>, Page <page>]` header line. -/
def sourceHeaderLine (documentName : List Char) (page : Nat) : List Char :=
  "[Source: ".data ++ documentName ++ ", Page ".data ++ (Nat.repr page).data ++ [']']

/-- The `[Section: <header>]` header line. -/
def sectionHeaderLine (header : List Char) : List Char :=
  "[Section: ".data ++ header ++ [']']

/-- `enrichChunkWithContext` (scripts/ingest-documents.ts lines 89–117):
prepend the source header, a section header when the chunk's first line
has length in (5, 60), and a blank line before the chunk itself.
`chunkIndex`/`totalChunks` are accepted and unused, as in the source. -/
def enrichChunkWithContext (chunk documentName : List Char) (page : Nat)
    (chunkIndex totalChunks : Nat) : List Char :=
  sourceHeaderLine documentName page ++ '\n' ::
    ((if decide (((splitChar '\n' chunk).headD []).length < 60)
          && decide (((splitChar '\n' chunk).headD []).length > 5)
      then sectionHeaderLine ((splitChar '\n' chunk).headD []) ++ ['\n']
      else []) ++ '\n' :: chunk)

theorem removeLines_step (p : List Char → Bool) :
    ∀ (line : List Char) (cur : List Char) (rest : List Char),
      (∀ c ∈ line, isLineBreak c = false) →
      removeLines p cur (line ++ '\n' :: rest)
        = if p (cur.reverse ++ line) then removeLines p [] rest
          else (cur.reverse ++ line) ++ '\n' :: removeLines p [] rest := by
  intro line
  induction line with
  | nil =>
    intro cur rest _
    simp [removeLines]
  | cons c line ih =>
    intro cur rest hnb
    have hcb : isLineBreak c = false := hnb c (List.mem_cons_self c line)
    have hcn : c ≠ '\n' := by intro h; subst h; simp [isLineBreak] at hcb
    have hcr : c ≠ '\r' := by intro h; subst h; simp [isLineBreak] at hcb
    have hstep : removeLines p cur ((c :: line) ++ '\n' :: rest)
        = removeLines p (c :: cur) (line ++ '\n' :: rest) := by
      simp only [List.cons_append, removeLines, if_neg hcn, if_neg hcr]
      rfl
    rw [hstep, ih (c :: cur) rest (fun d hd => hnb d (List.mem_cons_of_mem c hd))]
    simp

theorem stripLines_step (p : List Char → Bool) (line rest : List Char)
    (h : ∀ c ∈ line, isLineBreak c = false) :
    stripLines p (line ++ '\n' :: rest)
      = if p line then stripLines p rest else line ++ '\n' :: stripLines p rest := by
  unfold stripLines
  rw [removeLines_step p line [] rest h]
  simp

theorem removeLines_id (p : List Char → Bool) :
    ∀ (s : List Char) (cur : List Char),
      (∀ l ∈ splitBreaksCore cur s, p l = false) →
      removeLines p cur s = cur.reverse ++ s := by
  intro s
  induction s with
  | nil =>
    intro cur _
    simp [removeLines]
  | cons c rest ih =>
    intro cur hall
    by_cases hcn : c = '\n'
    · subst hcn
      have h0 : p cur.reverse = false := by
        apply hall
        rw [show splitBreaksCore cur ('\n' :: rest)
            = cur.reverse :: splitBreaksCore [] rest from by simp [splitBreaksCore, isLineBreak]]
        exact List.mem_cons_self _ _
      have hrest : ∀ l ∈ splitBreaksCore [] rest, p l = false := by
        intro l hl
        apply hall
        rw [show splitBreaksCore cur ('\n' :: rest)
            = cur.reverse :: splitBreaksCore [] rest from by simp [splitBreaksCore, isLineBreak]]
        exact List.mem_cons_of_mem _ hl
      simp only [removeLines, if_pos rfl, h0, Bool.false_eq_true, if_neg (Bool.false_ne_true)]
      rw [ih [] hrest]
      simp
    · by_cases hcr : c = '\r'
      · subst hcr
        have hrest : ∀ l ∈ splitBreaksCore [] rest, p l = false := by
          intro l hl
          apply hall
          rw [show splitBreaksCore cur ('\r' :: rest)
              = cur.reverse :: splitBreaksCore [] rest from by simp [splitBreaksCore, isLineBreak]]
          exact List.mem_cons_of_mem _ hl
        rw [show removeLines p cur ('\r' :: rest)
            = cur.reverse ++ '\r' :: removeLines p [] rest from by simp [removeLines]]
        rw [ih [] hrest]
        simp
      · have hkeep : splitBreaksCore cur (c :: rest) = splitBreaksCore (c :: cur) rest := by
          simp [splitBreaksCore, isLineBreak, hcn, hcr]
        simp only [removeLines, if_neg hcn, if_neg hcr]
        rw [ih (c :: cur) (hkeep ▸ hall)]
        simp

theorem stripLines_id (p : List Char → Bool) (s : List Char)
    (h : ∀ l ∈ splitSegments s, p l = false) : stripLines p s = s := by
  unfold stripLines
  rw [removeLines_id p s [] h]
  simp

theorem stripLines_cons_nl (p : List Char → Bool) (hp : p [] = false) (s : List Char) :
    stripLines p ('\n' :: s) = '\n' :: stripLines p s := by
  have := stripLines_step p [] s (by simp)
  rw [hp] at this
  simpa using this

theorem splitCharCore_ne_nil (sep : Char) :
    ∀ (s : List Char) (cur : List Char), splitCharCore sep cur s ≠ [] := by
  intro s
  induction s with
  | nil => intro cur; simp [splitCharCore]
  | cons c rest ih =>
    intro cur
    by_cases hc : c = sep
    · simp [splitCharCore, hc]
    · simp only [splitCharCore, if_neg hc]
      exact ih (c :: cur)

theorem splitCharCore_no_sep (sep : Char) :
    ∀ (s : List Char) (cur : List Char), sep ∉ cur →
      ∀ l ∈ splitCharCore sep cur s, sep ∉ l := by
  intro s
  induction s with
  | nil =>
    intro cur hcur l hl
    simp only [splitCharCore, List.mem_singleton] at hl
    subst hl
    simpa using hcur
  | cons c rest ih =>
    intro cur hcur l hl
    by_cases hc : c = sep
    · rw [show splitCharCore sep cur (c :: rest) = cur.reverse :: splitCharCore sep [] rest
        from by simp [splitCharCore, hc]] at hl
      rcases List.mem_cons.mp hl with heq | hmem
      · subst heq; simpa using hcur
      · exact ih [] (by simp) l hmem
    · simp only [splitCharCore, if_neg hc] at hl
      refine ih (c :: cur) ?_ l hl
      intro hmem
      rcases List.mem_cons.mp hmem with rfl | h
      · exact hc rfl
      · exact hcur h

theorem splitChar_no_sep (sep : Char) (s : List Char) :
    ∀ l ∈ splitChar sep s, sep ∉ l :=
  splitCharCore_no_sep sep s [] (by simp)

theorem isLineBreak_eq_false {c : Char} (hn : c ≠ '\n') (hr : c ≠ '\r') :
    isLineBreak c = false := by
  simp [isLineBreak, hn, hr]

theorem contains_eq_false {c : Char} {l : List Char} (h : c ∉ l) :
    l.contains c = false := by
  simpa using h

theorem not_mem_of_no_break {c : Char} {l : List Char}
    (h : ∀ d ∈ l, isLineBreak d = false) (hc : isLineBreak c = true) : c ∉ l := by
  intro hmem
  rw [h c hmem] at hc
  exact Bool.false_ne_true hc

theorem digitChar_not_break (n : Nat) : isLineBreak (Nat.digitChar n) = false := by
  have h : n = 0 ∨ n = 1 ∨ n = 2 ∨ n = 3 ∨ n = 4 ∨ n = 5 ∨ n = 6 ∨ n = 7 ∨ n = 8 ∨
      n = 9 ∨ n = 10 ∨ n = 11 ∨ n = 12 ∨ n = 13 ∨ n = 14 ∨ n = 15 ∨ 16 ≤ n := by omega
  unfold Nat.digitChar
  rcases h with rfl|rfl|rfl|rfl|rfl|rfl|rfl|rfl|rfl|rfl|rfl|rfl|rfl|rfl|rfl|rfl|h
  all_goals try decide
  repeat rw [if_neg (by omega)]
  decide

theorem toDigitsCore_no_break (b : Nat) :
    ∀ (fuel n : Nat) (ds : List Char), (∀ c ∈ ds, isLineBreak c = false) →
      ∀ c ∈ Nat.toDigitsCore b fuel n ds, isLineBreak c = false := by
  intro fuel
  induction fuel with
  | zero => intro n ds hds; simpa [Nat.toDigitsCore] using hds
  | succ fuel ih =>
    intro n ds hds
    simp only [Nat.toDigitsCore]
    split
    · intro c hmem
      rcases List.mem_cons.mp hmem with h | h
      · rw [h]; exact digitChar_not_break _
      · exact hds c h
    · apply ih
      intro c hmem
      rcases List.mem_cons.mp hmem with h | h
      · rw [h]; exact digitChar_not_break _
      · exact hds c h

theorem natRepr_no_break (n : Nat) : ∀ c ∈ (Nat.repr n).data, isLineBreak c = false := by
  unfold Nat.repr
  show ∀ c ∈ (Nat.toDigits 10 n).asString.data, isLineBreak c = false
  unfold Nat.toDigits
  exact toDigitsCore_no_break 10 (n + 1) n [] (by simp)

theorem sourceHeader_no_break {d : List Char} (hdn : '\n' ∉ d) (hdr : '\r' ∉ d)
    (p : Nat) : ∀ c ∈ sourceHeaderLine d p, isLineBreak c = false := by
  intro c hmem
  unfold sourceHeaderLine at hmem
  simp only [List.mem_append] at hmem
  rcases hmem with (((h | h) | h) | h) | h
  · exact (by decide : ∀ x ∈ ("[Source: ").data, isLineBreak x = false) c h
  · exact isLineBreak_eq_false (fun he => hdn (he ▸ h)) (fun he => hdr (he ▸ h))
  · exact (by decide : ∀ x ∈ (", Page ").data, isLineBreak x = false) c h
  · exact natRepr_no_break p c h
  · exact (by decide : ∀ x ∈ [']'], isLineBreak x = false) c h

theorem sectionHeader_no_break {h0 : List Char} (hn : '\n' ∉ h0) (hr : '\r' ∉ h0) :
    ∀ c ∈ sectionHeaderLine h0, isLineBreak c = false := by
  intro c hmem
  unfold sectionHeaderLine at hmem
  simp only [List.mem_append] at hmem
  rcases hmem with (hm | hm) | hm
  · exact (by decide : ∀ x ∈ ("[Section: ").data, isLineBreak x = false) c hm
  · exact isLineBreak_eq_false (fun he => hn (he ▸ hm)) (fun he => hr (he ▸ hm))
  · exact (by decide : ∀ x ∈ [']'], isLineBreak x = false) c hm

theorem matches_source_sourceHeader (d : List Char) (p : Nat)
    (hdn : '\n' ∉ d) (hdr : '\r' ∉ d) :
    matchesTagLine sourceTagStr (sourceHeaderLine d p) = true := by
  have hnb := sourceHeader_no_break hdn hdr p
  unfold matchesTagLine
  simp only [Bool.and_eq_true]
  refine ⟨⟨⟨rfl, ?_⟩, ?_⟩, ?_⟩
  · unfold sourceHeaderLine
    rw [List.getLast?_concat]
    simp
  · rw [Bool.not_eq_true']
    exact contains_eq_false (not_mem_of_no_break hnb (by decide))
  · rw [Bool.not_eq_true']
    exact contains_eq_false (not_mem_of_no_break hnb (by decide))

theorem matches_section_sectionHeader (h0 : List Char) (hn : '\n' ∉ h0) (hr : '\r' ∉ h0) :
    matchesTagLine sectionTagStr (sectionHeaderLine h0) = true := by
  have hnb := sectionHeader_no_break hn hr
  unfold matchesTagLine
  simp only [Bool.and_eq_true]
  refine ⟨⟨⟨rfl, ?_⟩, ?_⟩, ?_⟩
  · unfold sectionHeaderLine
    rw [List.getLast?_concat]
    simp
  · rw [Bool.not_eq_true']
    exact contains_eq_false (not_mem_of_no_break hnb (by decide))
  · rw [Bool.not_eq_true']
    exact contains_eq_false (not_mem_of_no_break hnb (by decide))

theorem source_not_matches_sectionHeader (h0 : List Char) :
    matchesTagLine sourceTagStr (sectionHeaderLine h0) = false := rfl

theorem matchesTagLine_nil (tag : List Char) (htag : tag ≠ []) :
    matchesTagLine tag [] = false := by
  unfold matchesTagLine
  cases tag with
  | nil => exact absurd rfl htag
  | cons c t => rfl

theorem headD_mem_of_ne_nil {α : Type} (l : List α) (d : α) (h : l ≠ []) : l.headD d ∈ l := by
  cases l with
  | nil => exact absurd rfl h
  | cons a t => simp

theorem trimStr_cons_ws {c : Char} (h : isWS c = true) (s : List Char) :
    trimStr (c :: s) = trimStr s := by
  unfold trimStr
  rw [List.dropWhile_cons]
  simp only [h, if_pos]

/-- C5 counterexample: a chunk whose own first line has the shape
`[Source: …]` is not recovered by the round trip — both strip passes act
on the whole enriched string, so the chunk's line is deleted together
with the injected headers. -/
theorem claim5_counterexample :
    trimStr ("[Source: x]\nab".data) = "[Source: x]\nab".data ∧
    extractCleanContent
        (enrichChunkWithContext ("[Source: x]\nab".data) ("d".data) 1 0 1)
      = "ab".data ∧
    extractCleanContent
        (enrichChunkWithContext ("[Source: x]\nab".data) ("d".data) 1 0 1)
      ≠ trimStr ("[Source: x]\nab".data) :=
  ⟨by decide, by decide, by decide⟩

/-- C5 (amended): the round trip
`extractCleanContent (enrichChunkWithContext chunk doc page i n) = trimStr chunk`
holds for every page number and every document name containing no literal
newline and no carriage return, provided the chunk's first line (as split
on `'\n'`, the candidate section header) contains no carriage return and
no CR/LF-separated segment of the chunk itself matches a header pattern
(starts with `[Source:` or `[Section:` and ends with `]`). -/
theorem claim5_amended_roundtrip (chunk documentName : List Char) (page i n : Nat)
    (hdocn : '\n' ∉ documentName) (hdocr : '\r' ∉ documentName)
    (hl0r : '\r' ∉ (splitChar '\n' chunk).headD [])
    (hchunk : ∀ l ∈ splitSegments chunk,
      matchesTagLine sourceTagStr l = false ∧ matchesTagLine sectionTagStr l = false) :
    extractCleanContent (enrichChunkWithContext chunk documentName page i n)
      = trimStr chunk := by
  have hsrc_nb : ∀ c ∈ sourceHeaderLine documentName page, isLineBreak c = false :=
    sourceHeader_no_break hdocn hdocr page
  have hpsrc_nil : matchesTagLine sourceTagStr [] = false := matchesTagLine_nil _ (by decide)
  have hpsec_nil : matchesTagLine sectionTagStr [] = false := matchesTagLine_nil _ (by decide)
  have hid_src : stripLines (matchesTagLine sourceTagStr) chunk = chunk :=
    stripLines_id _ chunk (fun l hl => (hchunk l hl).1)
  have hid_sec : stripLines (matchesTagLine sectionTagStr) chunk = chunk :=
    stripLines_id _ chunk (fun l hl => (hchunk l hl).2)
  have hbody_src : stripLines (matchesTagLine sourceTagStr) ('\n' :: chunk)
      = '\n' :: chunk := by
    rw [stripLines_cons_nl _ hpsrc_nil, hid_src]
  have hbody_sec : stripLines (matchesTagLine sectionTagStr) ('\n' :: chunk)
      = '\n' :: chunk := by
    rw [stripLines_cons_nl _ hpsec_nil, hid_sec]
  unfold extractCleanContent enrichChunkWithContext
  rw [stripLines_step _ _ _ hsrc_nb,
    if_pos (matches_source_sourceHeader documentName page hdocn hdocr)]
  by_cases hsec : (decide (((splitChar '\n' chunk).headD []).length < 60)
      && decide (((splitChar '\n' chunk).headD []).length > 5)) = true
  · rw [if_pos hsec]
    have hl0nl : '\n' ∉ (splitChar '\n' chunk).headD [] :=
      splitChar_no_sep '\n' chunk _
        (headD_mem_of_ne_nil _ _ (splitCharCore_ne_nil '\n' chunk []))
    have hsec_nb : ∀ c ∈ sectionHeaderLine ((splitChar '\n' chunk).headD []),
        isLineBreak c = false :=
      sectionHeader_no_break hl0nl hl0r
    rw [show (sectionHeaderLine ((splitChar '\n' chunk).headD []) ++ ['\n']) ++ '\n' :: chunk
        = sectionHeaderLine ((splitChar '\n' chunk).headD []) ++ '\n' :: ('\n' :: chunk)
      from by simp]
    rw [stripLines_step _ _ _ hsec_nb,
      if_neg (by rw [source_not_matches_sectionHeader]; exact Bool.false_ne_true)]
    rw [hbody_src]
    rw [stripLines_step _ _ _ hsec_nb,
      if_pos (matches_section_sectionHeader _ hl0nl hl0r)]
    rw [hbody_sec, trimStr_cons_ws (by decide)]
  · rw [if_neg hsec]
    simp only [List.nil_append]
    rw [hbody_src, hbody_sec, trimStr_cons_ws (by decide)]

/-- C5 witness: a concrete round trip through enrichment (with a section
header detected) recovers the chunk. -/
theorem claim5_witness :
    ('\n' ∉ ("Doc".data)) ∧ ('\r' ∉ ("Doc".data)) ∧
    ('\r' ∉ (splitChar '\n' ("hello world".data)).headD []) ∧
    (∀ l ∈ splitSegments ("hello world".data),
      matchesTagLine sourceTagStr l = false ∧ matchesTagLine sectionTagStr l = false) ∧
    extractCleanContent (enrichChunkWithContext ("hello world".data) ("Doc".data) 3 0 1)
      = trimStr ("hello world".data) :=
  ⟨by decide, by decide, by decide, by decide,
    claim5_amended_roundtrip ("hello world".data) ("Doc".data) 3 0 1
      (by decide) (by decide) (by decide) (by decide)⟩

/-! ## A stable sort modelling `Array.prototype.sort`

ECMAScript's `sort` is stable; with a consistent comparator any stable
sort produces the same list, so we model it by stable insertion:
`le y x = true` means `y` may stay before `x` (comparator ≤ 0). -/

def insertStable {α : Type} (le : α → α → Bool) (x : α) : List α → List α
  | [] => [x]
  | y :: ys => if le y x then y :: insertStable le x ys else x :: y :: ys

def stableSortBy {α : Type} (le : α → α → Bool) (l : List α) : List α :=
  l.foldl (fun acc x => insertStable le x acc) []

section StableSort

variable {α : Type} (le : α → α → Bool)

theorem mem_insertStable (x a : α) :
    ∀ l : List α, (a ∈ insertStable le x l ↔ a = x ∨ a ∈ l) := by
  intro l
  induction l with
  | nil => simp [insertStable]
  | cons y ys ih =>
    unfold insertStable
    split
    · simp only [List.mem_cons, ih]
      tauto
    · simp [List.mem_cons]

theorem insertStable_pairwise
    (htrans : ∀ a b c, le a b = true → le b c = true → le a c = true)
    (htot : ∀ a b, le a b = true ∨ le b a = true) (x : α) :
    ∀ l : List α, List.Pairwise (fun a b => le a b = true) l →
      List.Pairwise (fun a b => le a b = true) (insertStable le x l) := by
  intro l
  induction l with
  | nil => intro _; simp [insertStable]
  | cons y ys ih =>
    intro hp
    rcases List.pairwise_cons.mp hp with ⟨hy, hys⟩
    unfold insertStable
    split
    · refine List.pairwise_cons.mpr ⟨?_, ih hys⟩
      intro z hz
      rcases (mem_insertStable le x z ys).mp hz with rfl | hzys
      · assumption
      · exact hy z hzys
    · refine List.pairwise_cons.mpr ⟨?_, hp⟩
      intro z hz
      have hxy : le x y = true := by
        rcases htot x y with h | h
        · exact h
        · exact absurd h (by simp_all)
      rcases List.mem_cons.mp hz with rfl | hzys
      · exact hxy
      · exact htrans x y z hxy (hy z hzys)

theorem foldl_insertStable_pairwise
    (htrans : ∀ a b c, le a b = true → le b c = true → le a c = true)
    (htot : ∀ a b, le a b = true ∨ le b a = true) :
    ∀ (l acc : List α), List.Pairwise (fun a b => le a b = true) acc →
      List.Pairwise (fun a b => le a b = true)
        (l.foldl (fun acc x => insertStable le x acc) acc) := by
  intro l
  induction l with
  | nil => intro acc h; simpa using h
  | cons x l ih =>
    intro acc h
    exact ih _ (insertStable_pairwise le htrans htot x acc h)

theorem stableSortBy_pairwise
    (htrans : ∀ a b c, le a b = true → le b c = true → le a c = true)
    (htot : ∀ a b, le a b = true ∨ le b a = true) (l : List α) :
    List.Pairwise (fun a b => le a b = true) (stableSortBy le l) :=
  foldl_insertStable_pairwise le htrans htot l [] (by simp)

theorem mem_foldl_insertStable (a : α) :
    ∀ (l acc : List α),
      (a ∈ l.foldl (fun acc x => insertStable le x acc) acc ↔ a ∈ acc ∨ a ∈ l) := by
  intro l
  induction l with
  | nil => intro acc; simp
  | cons x l ih =>
    intro acc
    simp only [List.foldl_cons, ih, mem_insertStable, List.mem_cons]
    tauto

theorem mem_stableSortBy (a : α) (l : List α) :
    a ∈ stableSortBy le l ↔ a ∈ l := by
  unfold stableSortBy
  rw [mem_foldl_insertStable]
  simp

theorem filter_insertStable (p : α → Bool)
    (htrans : ∀ a b c, le a b = true → le b c = true → le a c = true)
    (hmut : ∀ a b, p a = true → p b = true → le a b = true) (x : α) :
    ∀ l : List α, List.Pairwise (fun a b => le a b = true) l →
      (insertStable le x l).filter p
        = l.filter p ++ (if p x then [x] else []) := by
  intro l
  induction l with
  | nil =>
    intro _
    simp only [insertStable, List.filter_cons, List.filter_nil]
    cases hx : p x <;> simp [hx]
  | cons y ys ih =>
    intro hp
    rcases List.pairwise_cons.mp hp with ⟨hy, hys⟩
    unfold insertStable
    split
    · rw [List.filter_cons, List.filter_cons]
      split
      · rw [ih hys]
        simp
      · exact ih hys
    · rename_i hyx
      cases hx : p x with
      | false =>
        simp [List.filter_cons, hx]
      | true =>
        have hnil : (y :: ys).filter p = [] := by
          rw [List.filter_eq_nil_iff]
          intro z hz hpz
          rcases List.mem_cons.mp hz with rfl | hzys
          · exact hyx (hmut z x hpz hx)
          · exact hyx (htrans y z x (hy z hzys) (hmut z x hpz hx))
        rw [List.filter_cons_of_pos hx, hnil]
        simp [hnil]

theorem filter_foldl_insertStable (p : α → Bool)
    (htrans : ∀ a b c, le a b = true → le b c = true → le a c = true)
    (htot : ∀ a b, le a b = true ∨ le b a = true)
    (hmut : ∀ a b, p a = true → p b = true → le a b = true) :
    ∀ (l acc : List α), List.Pairwise (fun a b => le a b = true) acc →
      (l.foldl (fun acc x => insertStable le x acc) acc).filter p
        = acc.filter p ++ l.filter p := by
  intro l
  induction l with
  | nil => intro acc _; simp
  | cons x l ih =>
    intro acc hacc
    rw [List.foldl_cons, ih _ (insertStable_pairwise le htrans htot x acc hacc),
      filter_insertStable le p htrans hmut x acc hacc, List.filter_cons]
    cases hx : p x with
    | false => simp [hx]
    | true => simp [hx]

/-- Stability: for every predicate compatible with the comparator (in
particular "has score `s`"), filtering the sorted list gives exactly the
filtered input — equal elements keep their original relative order. -/
theorem filter_stableSortBy (p : α → Bool)
    (htrans : ∀ a b c, le a b = true → le b c = true → le a c = true)
    (htot : ∀ a b, le a b = true ∨ le b a = true)
    (hmut : ∀ a b, p a = true → p b = true → le a b = true) (l : List α) :
    (stableSortBy le l).filter p = l.filter p := by
  unfold stableSortBy
  rw [filter_foldl_insertStable le p htrans htot hmut l [] (by simp)]
  simp

end StableSort

/-! ## The retrieval data model, `rerankResults` and `performRAG`
(lib/rag.ts lines 120–275) -/

/-- The stored metadata of a chunk (types/index.ts `DocumentChunk.metadata`). -/
structure ChunkMetadata where
  document : List Char
  page : Nat
  sectionName : Option (List Char)
  chunk_index : Nat
deriving DecidableEq

/-- A retrieval candidate as returned by the vector store. -/
structure RagDoc where
  content : List Char
  metadata : ChunkMetadata
  similarity : ℚ
deriving DecidableEq

/-- A candidate after rescoring: `rerankResults` adds `originalSimilarity`
and `keywordRelevance` and overwrites `similarity` with the hybrid score. -/
structure RankedDoc where
  content : List Char
  metadata : ChunkMetadata
  originalSimilarity : ℚ
  keywordRelevance : ℚ
  similarity : ℚ
deriving DecidableEq

/-- The hybrid-score formula (lib/rag.ts line 130). -/
def hybridScore (similarity keywordRelevance vectorWeight keywordWeight : ℚ) : ℚ :=
  similarity * vectorWeight + keywordRelevance * keywordWeight

/-- The body of the `map` in `rerankResults` (lib/rag.ts lines 126–137). -/
def rescoreDoc (query : List Char) (vectorWeight keywordWeight : ℚ)
    (doc : RagDoc) : RankedDoc :=
  { content := doc.content
    metadata := doc.metadata
    originalSimilarity := doc.similarity
    keywordRelevance := calculateKeywordRelevance query doc.content
    similarity := hybridScore doc.similarity
      (calculateKeywordRelevance query doc.content) vectorWeight keywordWeight }

/-- The sort comparator `(a, b) => b.similarity - a.similarity`: `a` may
stay before `b` exactly when the comparator value is ≤ 0. -/
def simDescLe (a b : RankedDoc) : Bool := decide (b.similarity ≤ a.similarity)

/-- `rerankResults` (lib/rag.ts lines 120–139). -/
def rerankResults (query : List Char) (documents : List RagDoc)
    (vectorWeight keywordWeight : ℚ) : List RankedDoc :=
  stableSortBy simDescLe (documents.map (rescoreDoc query vectorWeight keywordWeight))

/-- A user-facing citation (types/index.ts `Source`). -/
structure Source where
  document : List Char
  page : Nat
  content : List Char
  similarity : ℚ
deriving DecidableEq

/-- One element of the `sources` array built in `buildContext`
(lib/rag.ts lines 157–162). -/
def mkSource (doc : RankedDoc) : Source :=
  { document := doc.metadata.document
    page := doc.metadata.page
    content := extractCleanContent doc.content
    similarity := doc.similarity }

/-- One entry of the joined context block (lib/rag.ts lines 164–169). -/
def contextEntry (idx : Nat) (doc : RankedDoc) : List Char :=
  ("[Source ").data ++ (Nat.repr (idx + 1)).data ++ (": ").data
    ++ doc.metadata.document ++ (", Page ").data ++ (Nat.repr doc.metadata.page).data
    ++ ("]\n").data ++ extractCleanContent doc.content

/-- `buildContext` (lib/rag.ts lines 156–172): the context block and the
`Source` list. -/
def buildContext (documents : List RankedDoc) : (List Char) × List Source :=
  (List.intercalate (("\n\n---\n\n").data)
      (documents.enum.map (fun p => contextEntry p.1 p.2)),
    documents.map mkSource)

/-- The fixed part of the system prompt before the context block
(lib/rag.ts lines 178–183). -/
def promptPre : List Char := ("You are a helpful VoltDrive customer support assistant. You help customers with questions about their VoltDrive electric vehicles.\n\nUse the following context from VoltDrive documentation to answer questions. The context includes relevant excerpts with source information.\n\nContext from VoltDrive documentation:\n").data

/-- The fixed part of the system prompt after the context block
(lib/rag.ts lines 183–192). -/
def promptPost : List Char := ("\n\nInstructions:\n- Be friendly, professional, and concise\n- ALWAYS cite specific sources when providing information (e.g., \"According to the Troubleshooting Guide, page 3...\")\n- If the answer isn't fully covered in the context, say so clearly and offer to help with related topics\n- Focus on practical, actionable advice\n- Use the customer's terminology but clarify technical terms when needed\n- If multiple sources provide relevant information, synthesize them coherently\n- Prioritize safety and accuracy over being comprehensive").data

/-- `buildSystemPrompt` (lib/rag.ts lines 177–193). -/
def buildSystemPrompt (context : List Char) : List Char :=
  promptPre ++ context ++ promptPost

/-- The fallback system prompt returned when retrieval produced no
documents (lib/rag.ts lines 262–273): it lists the supported topic
categories and invites the user to rephrase. -/
def ragFallbackPrompt : List Char := ("You are a helpful VoltDrive customer support assistant. \n\nI apologize, but I couldn't find specific information in the VoltDrive documentation to answer your question. \n\nHowever, I'm here to help! I can assist with:\n- Troubleshooting common issues\n- Warranty and coverage questions  \n- Charging and battery information\n- General vehicle operation\n- Maintenance schedules\n\nCould you rephrase your question or ask about one of these topics?").data

/-- The record `performRAG` resolves with. -/
structure RagResult where
  context : List Char
  sources : List Source
  systemPrompt : List Char
deriving DecidableEq

/-- `performRAG` (lib/rag.ts lines 199–275) downstream of the external
embedding/search calls: given the retrieval result (`none` models a null
response), re-rank with the default weights 0.7/0.3, truncate to
`min 5 topK`, and build context, sources and prompt; with a null or
empty candidate set, return the fallback result. -/
def performRAGCore (query : List Char) (topK : Nat)
    (documents : Option (List RagDoc)) : RagResult :=
  match documents with
  | some docs =>
    if docs.length > 0 then
      { context := (buildContext ((rerankResults query docs (7/10) (3/10)).take (min 5 topK))).1
        sources := (buildContext ((rerankResults query docs (7/10) (3/10)).take (min 5 topK))).2
        systemPrompt := buildSystemPrompt
          (buildContext ((rerankResults query docs (7/10) (3/10)).take (min 5 topK))).1 }
    else { context := [], sources := [], systemPrompt := ragFallbackPrompt }
  | none => { context := [], sources := [], systemPrompt := ragFallbackPrompt }

theorem simDescLe_trans (a b c : RankedDoc)
    (h1 : simDescLe a b = true) (h2 : simDescLe b c = true) : simDescLe a c = true := by
  simp only [simDescLe, decide_eq_true_eq] at h1 h2 ⊢
  exact le_trans h2 h1

theorem simDescLe_total (a b : RankedDoc) :
    simDescLe a b = true ∨ simDescLe b a = true := by
  simp only [simDescLe, decide_eq_true_eq]
  exact le_total b.similarity a.similarity

/-- Membership in the re-ranked list is exactly membership in the rescored
input list. -/
theorem mem_rerankResults (q : List Char) (docs : List RagDoc) (vw kw : ℚ)
    (rd : RankedDoc) :
    rd ∈ rerankResults q docs vw kw ↔ ∃ d ∈ docs, rd = rescoreDoc q vw kw d := by
  unfold rerankResults
  rw [mem_stableSortBy]
  simp only [List.mem_map]
  constructor
  · rintro ⟨d, hd, rfl⟩; exact ⟨d, hd, rfl⟩
  · rintro ⟨d, hd, rfl⟩; exact ⟨d, hd, rfl⟩

/-- The re-ranked list is sorted by non-increasing (hybrid) similarity. -/
theorem rerank_sorted (q : List Char) (docs : List RagDoc) (vw kw : ℚ) :
    List.Pairwise (fun a b : RankedDoc => b.similarity ≤ a.similarity)
      (rerankResults q docs vw kw) := by
  have := stableSortBy_pairwise simDescLe simDescLe_trans simDescLe_total
    (docs.map (rescoreDoc q vw kw))
  exact this.imp (by intro a b h; simpa [simDescLe, decide_eq_true_eq] using h)

/-- Stability of the re-ranking sort: candidates of any fixed hybrid score
keep the relative order they had in the rescored input. -/
theorem rerank_filter_stable (q : List Char) (docs : List RagDoc) (vw kw s : ℚ) :
    (rerankResults q docs vw kw).filter (fun d => decide (d.similarity = s))
      = (docs.map (rescoreDoc q vw kw)).filter (fun d => decide (d.similarity = s)) := by
  unfold rerankResults
  apply filter_stableSortBy simDescLe _ simDescLe_trans simDescLe_total
  intro a b ha hb
  simp only [decide_eq_true_eq] at ha hb
  simp only [simDescLe, decide_eq_true_eq, ha, hb]
  exact le_refl s

/-- C3: the hybrid score is monotone in `keywordRelevance` for non-negative
weights; `rerankResults` assigns exactly the hybrid score as the new
`similarity`; its output is sorted by non-increasing hybrid score; and the
sort is stable (equal scores keep the original retrieval order). -/
theorem claim3_rerank_monotone_sorted_stable (vw kw : ℚ) (hvw : 0 ≤ vw) (hkw : 0 ≤ kw) :
    (∀ s r r' : ℚ, r ≤ r' → hybridScore s r vw kw ≤ hybridScore s r' vw kw) ∧
    (∀ (q : List Char) (docs : List RagDoc), ∀ d ∈ rerankResults q docs vw kw,
        d.similarity = hybridScore d.originalSimilarity d.keywordRelevance vw kw) ∧
    (∀ (q : List Char) (docs : List RagDoc),
        List.Pairwise (fun a b : RankedDoc => b.similarity ≤ a.similarity)
          (rerankResults q docs vw kw)) ∧
    (∀ (q : List Char) (docs : List RagDoc) (s : ℚ),
        (rerankResults q docs vw kw).filter (fun d => decide (d.similarity = s))
          = (docs.map (rescoreDoc q vw kw)).filter (fun d => decide (d.similarity = s))) := by
  refine ⟨?_, ?_, ?_, ?_⟩
  · intro s r r' h
    unfold hybridScore
    exact add_le_add_left (mul_le_mul_of_nonneg_right h hkw) _
  · intro q docs d hd
    rcases (mem_rerankResults q docs vw kw d).mp hd with ⟨x, _, rfl⟩
    simp [rescoreDoc]
  · intro q docs
    exact rerank_sorted q docs vw kw
  · intro q docs s
    exact rerank_filter_stable q docs vw kw s

/-- C3 witness: the default weights 0.7/0.3 are non-negative; instancing the
theorem there yields the sortedness of a concrete re-ranked list. -/
theorem claim3_witness :
    List.Pairwise (fun a b : RankedDoc => b.similarity ≤ a.similarity)
      (rerankResults ("warranty".data)
        [ { content := ("a warranty b".data)
            metadata := { document := ("Doc".data), page := 1,
                          sectionName := none, chunk_index := 0 }
            similarity := 1/2 },
          { content := ("nothing".data)
            metadata := { document := ("Doc".data), page := 2,
                          sectionName := none, chunk_index := 1 }
            similarity := 3/4 } ] (7/10) (3/10)) :=
  (claim3_rerank_monotone_sorted_stable (7/10) (3/10)
      (by norm_num) (by norm_num)).2.2.1 _ _

/-- C4: `rerankResults` overwrites `similarity` with exactly
`originalSimilarity * vectorWeight + keywordRelevance * keywordWeight`,
keeps the pre-rerank similarity in `originalSimilarity`, and `performRAG`
truncates to `min 5 topK`, builds the `Source` list directly from the
overwritten `similarity` (carried unchanged into `Source.similarity`),
in non-increasing hybrid-score order. -/
theorem claim4_hybrid_overwrite (q : List Char) (docs : List RagDoc) (vw kw : ℚ)
    (topK : Nat) (hne : docs.length > 0) :
    (∀ rd ∈ rerankResults q docs vw kw,
        rd.similarity = rd.originalSimilarity * vw + rd.keywordRelevance * kw ∧
        rd.keywordRelevance = calculateKeywordRelevance q rd.content) ∧
    (∀ rd ∈ rerankResults q docs vw kw,
        ∃ d ∈ docs, rd = rescoreDoc q vw kw d ∧ rd.originalSimilarity = d.similarity) ∧
    ((performRAGCore q topK (some docs)).sources
        = ((rerankResults q docs (7/10) (3/10)).take (min 5 topK)).map mkSource) ∧
    (∀ d : RankedDoc, (mkSource d).similarity = d.similarity) ∧
    List.Pairwise (fun a b : Source => b.similarity ≤ a.similarity)
      ((performRAGCore q topK (some docs)).sources) := by
  have hsources : (performRAGCore q topK (some docs)).sources
      = ((rerankResults q docs (7/10) (3/10)).take (min 5 topK)).map mkSource := by
    simp only [performRAGCore]
    rw [if_pos hne]
    simp [buildContext]
  refine ⟨?_, ?_, hsources, fun d => rfl, ?_⟩
  · intro rd hrd
    rcases (mem_rerankResults q docs vw kw rd).mp hrd with ⟨x, _, rfl⟩
    exact ⟨rfl, rfl⟩
  · intro rd hrd
    rcases (mem_rerankResults q docs vw kw rd).mp hrd with ⟨x, hx, rfl⟩
    exact ⟨x, hx, rfl, rfl⟩
  · rw [hsources]
    rw [List.pairwise_map]
    exact ((rerank_sorted q docs (7/10) (3/10)).sublist
      (List.take_sublist _ _))

/-- C4 witness: a singleton retrieval result instantiates the theorem. -/
theorem claim4_witness :
    List.Pairwise (fun a b : Source => b.similarity ≤ a.similarity)
      ((performRAGCore ("warranty".data) 8
        (some [ { content := ("a warranty b".data)
                  metadata := { document := ("Doc".data), page := 1,
                                sectionName := none, chunk_index := 0 }
                  similarity := 1/2 } ])).sources) :=
  (claim4_hybrid_overwrite ("warranty".data) _ (7/10) (3/10) 8 (by decide)).2.2.2.2

/-- C7: with a null or empty retrieval result, `performRAG` returns empty
sources, empty context and the fallback system prompt (which differs from
the context-bearing template); the fallback is a normal return, not an
error. -/
theorem claim7_fallback_on_empty (q : List Char) (topK : Nat) :
    performRAGCore q topK none
      = { context := [], sources := [], systemPrompt := ragFallbackPrompt } ∧
    performRAGCore q topK (some [])
      = { context := [], sources := [], systemPrompt := ragFallbackPrompt } ∧
    ragFallbackPrompt ≠ buildSystemPrompt [] := by
  refine ⟨rfl, rfl, by decide⟩

/-! ## `match_documents` (supabase-setup.sql lines 18–43) -/

/-- A stored row of the `document_chunks` table. -/
structure DBRow where
  id : Nat
  content : List Char
  metadata : ChunkMetadata
  embedding : List ℚ
deriving DecidableEq

/-- A row of the table returned by `match_documents`:
`{id, content, metadata, similarity}` with
`similarity = 1 - (embedding <=> query_embedding)`. -/
structure MatchRow where
  id : Nat
  content : List Char
  metadata : ChunkMetadata
  similarity : ℚ
deriving DecidableEq

/-- `match_documents`: the pgvector cosine-distance operator `<=>` is an
external collaborator, passed in as `dist`.  `WHERE 1 - dist > threshold`,
`ORDER BY dist` ascending, `LIMIT match_count`. -/
def match_documents (dist : List ℚ → List ℚ → ℚ) (table : List DBRow)
    (query_embedding : List ℚ) (match_count : Nat) (match_threshold : ℚ) :
    List MatchRow :=
  ((stableSortBy
      (fun a b : DBRow =>
        decide (dist a.embedding query_embedding ≤ dist b.embedding query_embedding))
      (table.filter
        (fun r => decide (1 - dist r.embedding query_embedding > match_threshold)))).map
    (fun r => { id := r.id, content := r.content, metadata := r.metadata,
                similarity := 1 - dist r.embedding query_embedding })).take match_count

/-- C6: the retrieval step returns only rows whose similarity
`1 - dist` strictly exceeds the threshold, in non-increasing similarity
order (ascending distance), at most `match_count` of them; and when no row
clears the threshold the result is the empty list — a normal value, not
an error. -/
theorem claim6_retrieval_contract (dist : List ℚ → List ℚ → ℚ) (table : List DBRow)
    (qe : List ℚ) (k : Nat) (θ : ℚ) :
    (∀ r ∈ match_documents dist table qe k θ, r.similarity > θ) ∧
    List.Pairwise (fun a b : MatchRow => b.similarity ≤ a.similarity)
      (match_documents dist table qe k θ) ∧
    (match_documents dist table qe k θ).length ≤ k ∧
    ((∀ r ∈ table, 1 - dist r.embedding qe ≤ θ) →
      match_documents dist table qe k θ = []) := by
  have htrans : ∀ a b c : DBRow,
      (decide (dist a.embedding qe ≤ dist b.embedding qe)) = true →
      (decide (dist b.embedding qe ≤ dist c.embedding qe)) = true →
      (decide (dist a.embedding qe ≤ dist c.embedding qe)) = true := by
    intro a b c h1 h2
    simp only [decide_eq_true_eq] at h1 h2 ⊢
    exact le_trans h1 h2
  have htot : ∀ a b : DBRow,
      (decide (dist a.embedding qe ≤ dist b.embedding qe)) = true ∨
      (decide (dist b.embedding qe ≤ dist a.embedding qe)) = true := by
    intro a b
    simp only [decide_eq_true_eq]
    exact le_total _ _
  refine ⟨?_, ?_, ?_, ?_⟩
  · intro r hr
    unfold match_documents at hr
    have hr' := List.mem_of_mem_take hr
    rcases List.mem_map.mp hr' with ⟨row, hrow, rfl⟩
    have := List.of_mem_filter ((mem_stableSortBy _ row _).mp hrow)
    simpa [gt_iff_lt, decide_eq_true_eq] using this
  · unfold match_documents
    refine List.Pairwise.sublist (List.take_sublist _ _) ?_
    rw [List.pairwise_map]
    refine List.Pairwise.imp ?_
      (stableSortBy_pairwise _ htrans htot
        (table.filter (fun r => decide (1 - dist r.embedding qe > θ))))
    intro a b h
    simp only [decide_eq_true_eq] at h
    simpa using sub_le_sub_left h 1
  · exact List.length_take_le _ _
  · intro hall
    unfold match_documents
    have hfil : table.filter (fun r => decide (1 - dist r.embedding qe > θ)) = [] := by
      rw [List.filter_eq_nil_iff]
      intro r hr
      simpa [gt_iff_lt, decide_eq_true_eq, not_lt] using hall r hr
    rw [hfil]
    simp [stableSortBy]

/-- C6 witness: an all-below-threshold (here: empty) table yields the
empty result. -/
theorem claim6_witness :
    match_documents (fun _ _ => 0) [] [] 5 (7/10) = [] :=
  (claim6_retrieval_contract (fun _ _ => 0) [] [] 5 (7/10)).2.2.2
    (fun r hr => absurd hr (List.not_mem_nil r))

/-! ## The chunker `chunkTextSemantic` (scripts/ingest-documents.ts lines 27–84) -/

/-- `text.replace(/\s+/g, ' ')` as a single pass: collapse every
whitespace run to one space (`prevWS` = inside a run). -/
def collapseWSCore (prevWS : Bool) : List Char → List Char
  | [] => []
  | c :: rest =>
    if isWS c then
      if prevWS then collapseWSCore true rest else ' ' :: collapseWSCore true rest
    else c :: collapseWSCore false rest

/-- `.replace(/\. /g, '.\n')`: each non-overlapping period-space pair
becomes period-newline, scanning left to right. -/
def dotSpaceToNL : List Char → List Char
  | [] => []
  | [c] => [c]
  | c1 :: c2 :: rest =>
    if c1 = '.' && c2 = ' ' then '.' :: '\n' :: dotSpaceToNL rest
    else c1 :: dotSpaceToNL (c2 :: rest)

/-- The cleaned text of `chunkTextSemantic` (lines 35–38): collapse
whitespace, break after sentence periods, trim. -/
def cleanupText (text : List Char) : List Char :=
  trimStr (dotSpaceToNL (collapseWSCore false text))

/-- `split(/(?<=[.!?])\s+/)` as a left-to-right pass: a maximal whitespace
run immediately preceded by `.`, `!` or `?` separates sentences; `inGap`
means we are consuming such a run (with `cur = []`). -/
def splitSentCore (inGap : Bool) (cur : List Char) : List Char → List (List Char)
  | [] => [cur.reverse]
  | c :: rest =>
    if inGap then
      if isWS c then splitSentCore true cur rest
      else if isTerm c && headIsWS rest then
        ((c :: cur).reverse) :: splitSentCore true [] rest
      else splitSentCore false [c] rest
    else
      if isTerm c && headIsWS rest then
        ((c :: cur).reverse) :: splitSentCore true [] rest
      else splitSentCore false (c :: cur) rest

def splitSentences (s : List Char) : List (List Char) := splitSentCore false [] s

/-- JS `arr.slice(-3)`: the last `n` elements (all of them when shorter). -/
def lastN {α : Type} (n : Nat) (l : List α) : List α := l.drop (l.length - n)

/-- `arr.join(' ')`. -/
def joinSpace (l : List (List Char)) : List Char := List.intercalate [' '] l

/-- The loop state of `chunkTextSemantic`: emitted chunks, the current
chunk, and the *tracked* running length — the source tracks it apart from
`currentChunk.length` (joining spaces are not counted; after a split it
is reset to the true length). -/
structure ChunkState where
  chunks : List (List Char)
  current : List Char
  currentLength : Nat
deriving DecidableEq

/-- One iteration of the sentence loop (lines 53–75): close the current
chunk when the tracked length would exceed `chunkSize`, seeding the next
chunk with the last 3 sentences of the closed one plus the new sentence;
otherwise append the sentence. -/
def chunkStep (chunkSize : Nat) (st : ChunkState) (sentence : List Char) : ChunkState :=
  if decide (st.currentLength + sentence.length > chunkSize)
      && decide (st.current.length > 0) then
    { chunks := st.chunks ++ [trimStr st.current]
      current := joinSpace (lastN 3 (splitSentences st.current)) ++ ' ' :: sentence
      currentLength :=
        (joinSpace (lastN 3 (splitSentences st.current)) ++ ' ' :: sentence).length }
  else
    { chunks := st.chunks
      current := if st.current.isEmpty then sentence else st.current ++ ' ' :: sentence
      currentLength := st.currentLength + sentence.length }

/-- The fold of the sentence loop over all sentences. -/
def chunkFold (chunkSize : Nat) (sentences : List (List Char)) : ChunkState :=
  sentences.foldl (chunkStep chunkSize) { chunks := [], current := [], currentLength := 0 }

/-- `chunkTextSemantic` (scripts/ingest-documents.ts lines 27–84).  The
`overlap` parameter is declared but never used by the source (the overlap
is the hard-coded last-3-sentences, the final-chunk minimum the literal
`100`). -/
def chunkTextSemantic (text : List Char) (chunkSize : Nat) (overlap : Nat) :
    List (List Char) :=
  if (cleanupText text).isEmpty then []
  else if (cleanupText text).length ≤ chunkSize then [cleanupText text]
  else
    (chunkFold chunkSize (splitSentences (cleanupText text))).chunks ++
      (if (trimStr (chunkFold chunkSize (splitSentences (cleanupText text))).current).length
          > 100
       then [trimStr (chunkFold chunkSize (splitSentences (cleanupText text))).current]
       else [])

/-! ## The ingestion pipeline `ingestDocuments`
(scripts/ingest-documents.ts lines 231–348) -/

/-- A page of extracted text as produced by `processPDF`. -/
structure PageData where
  page : Nat
  text : List Char
  sectionName : Option (List Char)
deriving DecidableEq

/-- A named corpus document (display name and file path). -/
structure CorpusDoc where
  name : List Char
  path : List Char
deriving DecidableEq

/-- A chunk as stored: the **plain** chunk text, the embedding computed on
the **enriched** text, and the metadata. -/
structure StoredChunk where
  content : List Char
  embedding : List ℚ
  metadata : ChunkMetadata
deriving DecidableEq

/-- The chunks one page contributes: chunk the page text (500/100), enrich
each chunk, embed the enriched text; a failed embedding call (`none`)
skips exactly that chunk. -/
def pageChunks (embed : List Char → Option (List ℚ)) (docName : List Char)
    (pg : PageData) : List StoredChunk :=
  (chunkTextSemantic pg.text 500 100).enum.filterMap (fun ic =>
    (embed (enrichChunkWithContext ic.2 docName pg.page ic.1
        (chunkTextSemantic pg.text 500 100).length)).map (fun e =>
      { content := ic.2
        embedding := e
        metadata := { document := docName, page := pg.page,
                      sectionName := pg.sectionName, chunk_index := ic.1 } }))

/-- The chunks one document contributes: nothing when its file is missing
(`continue`), else all its pages' chunks. -/
def docChunks (fsExists : List Char → Bool) (pdfPages : List Char → List PageData)
    (embed : List Char → Option (List ℚ)) (doc : CorpusDoc) : List StoredChunk :=
  if fsExists doc.path then (pdfPages doc.path).flatMap (pageChunks embed doc.name)
  else []

/-- `ingestDocuments` (lines 231–345) as the pure accumulation of the
`allChunks` array over the document/page/chunk loops; the external
collaborators (`fs.existsSync`, `processPDF`, the embedding service) are
parameters, the embedding returning `none` models a thrown call caught by
the per-chunk `try`/`catch`. -/
def ingestDocuments (fsExists : List Char → Bool)
    (pdfPages : List Char → List PageData)
    (embed : List Char → Option (List ℚ))
    (docs : List CorpusDoc) : List StoredChunk :=
  docs.foldl (fun acc doc =>
    if fsExists doc.path then
      (pdfPages doc.path).foldl (fun acc pg => acc ++ pageChunks embed doc.name pg) acc
    else acc) []

theorem foldl_append_flatMap {α β : Type} (f : α → List β) :
    ∀ (l : List α) (acc : List β),
      l.foldl (fun acc x => acc ++ f x) acc = acc ++ l.flatMap f := by
  intro l
  induction l with
  | nil => intro acc; simp
  | cons x l ih =>
    intro acc
    simp [ih, List.append_assoc]

theorem ingest_foldl_eq (fsExists : List Char → Bool)
    (pdfPages : List Char → List PageData)
    (embed : List Char → Option (List ℚ)) :
    ∀ (docs : List CorpusDoc) (acc : List StoredChunk),
      docs.foldl (fun acc doc =>
        if fsExists doc.path then
          (pdfPages doc.path).foldl (fun acc pg => acc ++ pageChunks embed doc.name pg) acc
        else acc) acc
      = acc ++ docs.flatMap (docChunks fsExists pdfPages embed) := by
  intro docs
  induction docs with
  | nil => intro acc; simp
  | cons doc docs ih =>
    intro acc
    rw [List.foldl_cons, List.flatMap_cons]
    by_cases hfs : fsExists doc.path = true
    · rw [if_pos hfs, foldl_append_flatMap, ih]
      unfold docChunks
      rw [if_pos hfs, List.append_assoc]
    · rw [if_neg hfs, ih]
      unfold docChunks
      rw [if_neg hfs]
      simp

/-- C8: ingestion is skip-and-continue: the stored chunks are exactly the
per-document contributions, where a missing file contributes nothing (the
rest of the corpus is still processed) and a failed embedding drops only
its own chunk (`filterMap` over the page's chunks); in particular, when
every document file is missing the pipeline completes normally with zero
stored chunks. -/
theorem claim8_ingest_skip_and_continue (fsExists : List Char → Bool)
    (pdfPages : List Char → List PageData)
    (embed : List Char → Option (List ℚ)) (docs : List CorpusDoc) :
    (ingestDocuments fsExists pdfPages embed docs
      = docs.flatMap (docChunks fsExists pdfPages embed)) ∧
    ((∀ d ∈ docs, fsExists d.path = false) →
      ingestDocuments fsExists pdfPages embed docs = []) := by
  have heq : ingestDocuments fsExists pdfPages embed docs
      = docs.flatMap (docChunks fsExists pdfPages embed) := by
    unfold ingestDocuments
    rw [ingest_foldl_eq]
    simp
  refine ⟨heq, ?_⟩
  intro hall
  rw [heq]
  rw [List.flatMap_eq_nil_iff]
  intro d hd
  unfold docChunks
  rw [if_neg (by rw [hall d hd]; exact Bool.false_ne_true)]

/-- C8 witness: two documents, both files missing, no pages readable:
the stored chunk list is empty. -/
theorem claim8_witness :
    ingestDocuments (fun _ => false) (fun _ => []) (fun _ => none)
      [ { name := ("VoltDrive Troubleshooting Guide".data),
          path := ("documents/troubleshooting_md.pdf".data) },
        { name := ("VoltDrive Warranty & Pricing".data),
          path := ("documents/warrantypricing_md.pdf".data) } ] = [] :=
  (claim8_ingest_skip_and_continue (fun _ => false) (fun _ => []) (fun _ => none)
    _).2 (fun d _ => rfl)

/-! ## Claim C1: sentence coverage of the chunker -/

/-- A well-formed sentence: non-empty, with non-whitespace first and last
characters.  `splitSentences` only produces such sentences on trimmed
input, and they survive `trim` inside any surrounding text. -/
def wfSent (s : List Char) : Prop :=
  s ≠ [] ∧ (∀ c, s.head? = some c → isWS c = false) ∧
    (∀ c, s.getLast? = some c → isWS c = false)

theorem isTerm_not_ws {c : Char} (h : isTerm c = true) : isWS c = false := by
  simp only [isTerm, Bool.or_eq_true, decide_eq_true_eq] at h
  rcases h with (rfl | rfl) | rfl <;> decide

theorem head?_dropWhile_not (p : Char → Bool) :
    ∀ (l : List Char) (c : Char), (l.dropWhile p).head? = some c → p c = false := by
  intro l
  induction l with
  | nil => intro c h; simp at h
  | cons a l ih =>
    intro c h
    rw [List.dropWhile_cons] at h
    split at h
    · exact ih c h
    · rename_i hpa
      simp only [List.head?_cons, Option.some.injEq] at h
      subst h
      exact Bool.eq_false_iff.mpr hpa

theorem getLast?_of_suffix {s t : List Char} (h : s <:+ t) (hs : s ≠ []) :
    t.getLast? = s.getLast? := by
  rcases h with ⟨u, rfl⟩
  exact List.getLast?_append_of_ne_nil u hs

theorem infix_dropWhile_of_head (p : Char → Bool) {s : List Char}
    (hs : s ≠ []) (hhead : ∀ c, s.head? = some c → p c = false) :
    ∀ t : List Char, s <:+: t → s <:+: t.dropWhile p := by
  intro t
  induction t with
  | nil =>
    intro h
    rw [List.infix_nil] at h
    exact absurd h hs
  | cons c t' ih =>
    intro h
    rw [List.dropWhile_cons]
    split
    · rename_i hpc
      rcases List.infix_cons_iff.mp h with hpre | hinf
      · cases s with
        | nil => exact absurd rfl hs
        | cons a s' =>
          have hac : a = c := by
            rcases hpre with ⟨u, hu⟩
            have := congrArg List.head? hu
            simpa using this
          subst hac
          rw [hhead a rfl] at hpc
          exact absurd hpc (by simp)
      · exact ih hinf
    · exact h

theorem infix_trimStr {s t : List Char} (hwf : wfSent s) (h : s <:+: t) :
    s <:+: trimStr t := by
  rcases hwf with ⟨hne, hhead, hlast⟩
  have h1 : s <:+: t.dropWhile isWS :=
    infix_dropWhile_of_head isWS hne hhead t h
  have h2 : s.reverse <:+: (t.dropWhile isWS).reverse :=
    List.reverse_infix.mpr h1
  have hrne : s.reverse ≠ [] := by simpa using hne
  have hrhead : ∀ c, s.reverse.head? = some c → isWS c = false := by
    intro c hc
    rw [List.head?_reverse s] at hc
    exact hlast c hc
  have h3 : s.reverse <:+: ((t.dropWhile isWS).reverse.dropWhile isWS) :=
    infix_dropWhile_of_head isWS hrne hrhead _ h2
  have h4 : s.reverse.reverse <:+: ((t.dropWhile isWS).reverse.dropWhile isWS).reverse :=
    List.reverse_infix.mpr h3
  simpa [trimStr] using h4

theorem and_true_parts {a b : Bool} (h : (a && b) = true) : a = true ∧ b = true := by
  constructor <;> simp_all

theorem headIsWS_ne_nil {l : List Char} (h : headIsWS l = true) : l ≠ [] := by
  cases l with
  | nil => simp [headIsWS] at h
  | cons a t => simp

/-- On a trimmed, non-empty text, every sentence produced by the split has
non-whitespace first and last characters and is non-empty.  The proof
tracks the scanner state: `l` is a suffix of `t`; in a gap `cur` is empty
and input remains; outside a gap a non-empty `cur` is the reversed
sentence-so-far whose first character (`cur.getLast?`) is non-whitespace
and whose latest character `c` satisfies `c :: l <:+ t`. -/
theorem splitSentCore_wf (t : List Char) (ht_ne : t ≠ [])
    (ht_head : ∀ c, t.head? = some c → isWS c = false)
    (ht_last : ∀ c, t.getLast? = some c → isWS c = false) :
    ∀ (l : List Char) (inGap : Bool) (cur : List Char),
      l <:+ t →
      (inGap = true → cur = []) →
      (inGap = true → l ≠ []) →
      (inGap = false → (cur ≠ [] ∨ l = t)) →
      (∀ c, cur.getLast? = some c → isWS c = false) →
      (∀ c, cur.head? = some c → (c :: l) <:+ t) →
      ∀ s ∈ splitSentCore inGap cur l, wfSent s := by
  intro l
  induction l with
  | nil =>
    intro inGap cur _ _ hgapne hfc hI4 hI5 s hs
    simp only [splitSentCore, List.mem_singleton] at hs
    subst hs
    cases inGap with
    | true => exact absurd rfl (hgapne rfl)
    | false =>
      have hcur : cur ≠ [] := by
        rcases hfc rfl with h | h
        · exact h
        · exact absurd h.symm ht_ne
      refine ⟨by simpa using hcur, ?_, ?_⟩
      · intro c hc
        rw [List.head?_reverse cur] at hc
        exact hI4 c hc
      · intro c hc
        rw [List.getLast?_reverse cur] at hc
        have hsuf1 : [c] <:+ t := hI5 c hc
        have hlastt := getLast?_of_suffix hsuf1 (by simp)
        exact ht_last c (by rw [hlastt]; rfl)
  | cons ch rest ih =>
    intro inGap cur hsuf hgapcur hgapne hfc hI4 hI5 s hs
    have hrest_suf : rest <:+ t := (List.suffix_cons ch rest).trans hsuf
    cases inGap with
    | true =>
      have hcur0 : cur = [] := hgapcur rfl
      subst hcur0
      by_cases hws : isWS ch = true
      · rw [show splitSentCore true [] (ch :: rest) = splitSentCore true [] rest from by
          simp [splitSentCore, hws]] at hs
        have hrne : rest ≠ [] := by
          intro h0
          subst h0
          have hlt : t.getLast? = some ch := by
            rw [getLast?_of_suffix hsuf (by simp)]; rfl
          rw [ht_last ch hlt] at hws
          exact Bool.false_ne_true hws
        exact ih true [] hrest_suf (fun _ => rfl) (fun _ => hrne) (fun h => nomatch h)
          (fun c hc => nomatch hc) (fun c hc => nomatch hc) s hs
      · by_cases hterm : (isTerm ch && headIsWS rest) = true
        · rw [show splitSentCore true [] (ch :: rest)
              = [ch] :: splitSentCore true [] rest from by
            simp [splitSentCore, hws, hterm]] at hs
          have htermch : isWS ch = false :=
            isTerm_not_ws (and_true_parts hterm).1
          rcases List.mem_cons.mp hs with rfl | hs'
          · exact ⟨by simp, by intro c hc; simp at hc; subst hc; exact htermch,
              by intro c hc; simp at hc; subst hc; exact htermch⟩
          · exact ih true [] hrest_suf (fun _ => rfl)
              (fun _ => headIsWS_ne_nil (and_true_parts hterm).2)
              (fun h => nomatch h) (fun c hc => nomatch hc) (fun c hc => nomatch hc) s hs'
        · rw [show splitSentCore true [] (ch :: rest) = splitSentCore false [ch] rest from by
            simp [splitSentCore, hws, hterm]] at hs
          refine ih false [ch] hrest_suf (fun h => nomatch h) (fun h => nomatch h)
            (fun _ => Or.inl (by simp)) ?_ ?_ s hs
          · intro c hc
            simp only [List.getLast?_singleton, Option.some.injEq] at hc
            subst hc
            exact Bool.eq_false_iff.mpr hws
          · intro c hc
            simp only [List.head?_cons, Option.some.injEq] at hc
            subst hc
            exact hsuf
    | false =>
      by_cases hterm : (isTerm ch && headIsWS rest) = true
      · rw [show splitSentCore false cur (ch :: rest)
            = ((ch :: cur).reverse) :: splitSentCore true [] rest from by
          simp [splitSentCore, hterm]] at hs
        have htermch : isWS ch = false :=
          isTerm_not_ws (and_true_parts hterm).1
        rcases List.mem_cons.mp hs with rfl | hs'
        · refine ⟨by simp, ?_, ?_⟩
          · intro c hc
            rw [List.head?_reverse (ch :: cur)] at hc
            cases cur with
            | nil =>
              simp only [List.getLast?_singleton, Option.some.injEq] at hc
              subst hc
              exact htermch
            | cons a cur' =>
              rw [List.getLast?_cons_cons] at hc
              exact hI4 c hc
          · intro c hc
            rw [List.getLast?_reverse (ch :: cur)] at hc
            simp only [List.head?_cons, Option.some.injEq] at hc
            subst hc
            exact htermch
        · exact ih true [] hrest_suf (fun _ => rfl)
            (fun _ => headIsWS_ne_nil (and_true_parts hterm).2)
            (fun h => nomatch h) (fun c hc => nomatch hc) (fun c hc => nomatch hc) s hs'
      · rw [show splitSentCore false cur (ch :: rest)
            = splitSentCore false (ch :: cur) rest from by
          simp [splitSentCore, hterm]] at hs
        refine ih false (ch :: cur) hrest_suf (fun h => nomatch h) (fun h => nomatch h)
          (fun _ => Or.inl (by simp)) ?_ ?_ s hs
        · intro c hc
          cases cur with
          | nil =>
            simp only [List.getLast?_singleton, Option.some.injEq] at hc
            subst hc
            rcases hfc rfl with h | h
            · exact absurd rfl h
            · exact ht_head ch (by rw [← h]; rfl)
          | cons a cur' =>
            rw [List.getLast?_cons_cons] at hc
            exact hI4 c hc
        · intro c hc
          simp only [List.head?_cons, Option.some.injEq] at hc
          subst hc
          exact hsuf

/-- Every sentence of a trimmed, non-empty text is well formed. -/
theorem splitSentences_wf (t : List Char) (ht_ne : t ≠ [])
    (ht_head : ∀ c, t.head? = some c → isWS c = false)
    (ht_last : ∀ c, t.getLast? = some c → isWS c = false) :
    ∀ s ∈ splitSentences t, wfSent s :=
  splitSentCore_wf t ht_ne ht_head ht_last t false [] (List.suffix_refl t)
    (fun h => nomatch h) (fun h => nomatch h) (fun _ => Or.inr rfl)
    (fun c hc => nomatch hc) (fun c hc => nomatch hc)

theorem trimStr_head_not_ws (s : List Char) :
    ∀ c, (trimStr s).head? = some c → isWS c = false := by
  intro c hc
  unfold trimStr at hc
  rw [List.head?_reverse] at hc
  have hBne : (((s.dropWhile isWS).reverse).dropWhile isWS) ≠ [] := by
    intro h0
    rw [h0] at hc
    exact nomatch hc
  have hAeq := getLast?_of_suffix (List.dropWhile_suffix (l := (s.dropWhile isWS).reverse) isWS) hBne
  rw [← hAeq, List.getLast?_reverse] at hc
  exact head?_dropWhile_not isWS s c hc

theorem trimStr_getLast_not_ws (s : List Char) :
    ∀ c, (trimStr s).getLast? = some c → isWS c = false := by
  intro c hc
  unfold trimStr at hc
  rw [List.getLast?_reverse] at hc
  exact head?_dropWhile_not isWS _ c hc

/-- Coverage through the chunk loop: the sentence occurs in an already
emitted chunk or in the current one. -/
def Covered (st : ChunkState) (s : List Char) : Prop :=
  (∃ ch ∈ st.chunks, s <:+: ch) ∨ s <:+: st.current

theorem chunkStep_preserves (cs : Nat) (st : ChunkState) (x s : List Char)
    (hwf : wfSent s) (h : Covered st s) : Covered (chunkStep cs st x) s := by
  unfold chunkStep
  split
  · rcases h with ⟨ch, hch, hinf⟩ | hcur
    · exact Or.inl ⟨ch, by simp [hch], hinf⟩
    · exact Or.inl ⟨trimStr st.current, by simp, infix_trimStr hwf hcur⟩
  · rcases h with ⟨ch, hch, hinf⟩ | hcur
    · exact Or.inl ⟨ch, hch, hinf⟩
    · right
      show s <:+: (if st.current.isEmpty then x else st.current ++ ' ' :: x)
      split
      · rename_i hemp
        rw [List.isEmpty_iff.mp hemp] at hcur
        exact absurd (List.infix_nil.mp hcur) hwf.1
      · exact hcur.trans (List.prefix_append st.current (' ' :: x)).isInfix

theorem chunkStep_adds (cs : Nat) (st : ChunkState) (x : List Char) :
    x <:+: (chunkStep cs st x).current := by
  unfold chunkStep
  split
  · exact ((List.suffix_cons ' ' x).trans
      (List.suffix_append (joinSpace (lastN 3 (splitSentences st.current))) _)).isInfix
  · show x <:+: (if st.current.isEmpty then x else st.current ++ ' ' :: x)
    split
    · exact List.infix_refl x
    · exact ((List.suffix_cons ' ' x).trans (List.suffix_append st.current _)).isInfix

theorem foldl_chunkStep_preserves (cs : Nat) (s : List Char) (hwf : wfSent s) :
    ∀ (l : List (List Char)) (st : ChunkState),
      Covered st s → Covered (l.foldl (chunkStep cs) st) s := by
  intro l
  induction l with
  | nil => intro st h; simpa using h
  | cons x l ih =>
    intro st h
    exact ih (chunkStep cs st x) (chunkStep_preserves cs st x s hwf h)

theorem chunkFold_covers (cs : Nat) :
    ∀ (sentences : List (List Char)) (st : ChunkState),
      (∀ s ∈ sentences, wfSent s) →
      ∀ s ∈ sentences, Covered (sentences.foldl (chunkStep cs) st) s := by
  intro sentences
  induction sentences with
  | nil => intro st _ s hs; exact absurd hs (List.not_mem_nil s)
  | cons x l ih =>
    intro st hwf s hs
    rw [List.foldl_cons]
    rcases List.mem_cons.mp hs with rfl | hs'
    · exact foldl_chunkStep_preserves cs s (hwf s hs) l (chunkStep cs st s)
        (Or.inr (chunkStep_adds cs st s))
    · exact ih (chunkStep cs st x) (fun z hz => hwf z (List.mem_cons_of_mem x hz)) s hs'

/-- A 12-sentence input: ten sentences of 'a's, then one of 'b's, then one
of 'c's, each 10 characters, space-separated (131 characters in all). -/
def chunkExample : List Char :=
  List.intercalate [' ']
    (List.replicate 10 (List.replicate 9 'a' ++ ['.'])
      ++ [List.replicate 9 'b' ++ ['.'], List.replicate 9 'c' ++ ['.']])

/-- C1 counterexample: the cleaned text (131 chars) exceeds the chunk size
(100); "ccccccccc." is a sentence of the input; yet the chunker emits a
single chunk (the ten 'a'-sentences) and no emitted chunk contains it: the
final accumulated chunk ("aaaaaaaaa. aaaaaaaaa. aaaaaaaaa. bbbbbbbbb.
ccccccccc.", trimmed length 54 ≤ 100) is dropped, not emitted — dropping
real sentences, not merely whitespace. -/
theorem claim1_counterexample :
    (cleanupText chunkExample).length > 100 ∧
    (List.replicate 9 'c' ++ ['.']) ∈ splitSentences (cleanupText chunkExample) ∧
    (chunkTextSemantic chunkExample 100 10).length = 1 ∧
    (∀ ch ∈ chunkTextSemantic chunkExample 100 10,
      ¬ (List.replicate 9 'c' ++ ['.']) <:+: ch) ∧
    (trimStr (chunkFold 100 (splitSentences (cleanupText chunkExample))).current).length
      ≤ 100 :=
  ⟨by decide, by decide, by decide, by decide, by decide⟩

/-- C1 (amended): for input whose cleaned text is longer than `chunkSize`,
the emitted list is the loop's closed chunks plus the final accumulated
chunk *only if* its trimmed length exceeds 100 characters; and every
sentence of the cleaned input occurs (as a contiguous substring) in some
emitted chunk, or else only in that final accumulated chunk, in which case
its trimmed length is ≤ 100 and it was dropped. -/
theorem claim1_amended_coverage (text : List Char) (chunkSize ov : Nat)
    (hlong : (cleanupText text).length > chunkSize) :
    (chunkTextSemantic text chunkSize ov
      = (chunkFold chunkSize (splitSentences (cleanupText text))).chunks ++
        (if (trimStr (chunkFold chunkSize (splitSentences (cleanupText text))).current).length
            > 100
         then [trimStr (chunkFold chunkSize (splitSentences (cleanupText text))).current]
         else [])) ∧
    ∀ s ∈ splitSentences (cleanupText text),
      (∃ ch ∈ chunkTextSemantic text chunkSize ov, s <:+: ch) ∨
      (s <:+: (chunkFold chunkSize (splitSentences (cleanupText text))).current ∧
        (trimStr (chunkFold chunkSize (splitSentences (cleanupText text))).current).length
          ≤ 100) := by
  have hne : cleanupText text ≠ [] := by
    intro h0
    rw [h0] at hlong
    simp at hlong
  have hnotle : ¬ (cleanupText text).length ≤ chunkSize := not_le.mpr hlong
  have heq : chunkTextSemantic text chunkSize ov
      = (chunkFold chunkSize (splitSentences (cleanupText text))).chunks ++
        (if (trimStr (chunkFold chunkSize (splitSentences (cleanupText text))).current).length
            > 100
         then [trimStr (chunkFold chunkSize (splitSentences (cleanupText text))).current]
         else []) := by
    unfold chunkTextSemantic
    rw [if_neg (by simpa [List.isEmpty_iff] using hne), if_neg hnotle]
  have hhead : ∀ c, (cleanupText text).head? = some c → isWS c = false := by
    unfold cleanupText
    exact trimStr_head_not_ws _
  have hlast : ∀ c, (cleanupText text).getLast? = some c → isWS c = false := by
    unfold cleanupText
    exact trimStr_getLast_not_ws _
  refine ⟨heq, ?_⟩
  intro s hs
  have hwf : wfSent s := splitSentences_wf (cleanupText text) hne hhead hlast s hs
  have hcov : Covered (chunkFold chunkSize (splitSentences (cleanupText text))) s :=
    chunkFold_covers chunkSize (splitSentences (cleanupText text))
      { chunks := [], current := [], currentLength := 0 }
      (splitSentences_wf (cleanupText text) hne hhead hlast) s hs
  rcases hcov with ⟨ch, hch, hinf⟩ | hcur
  · exact Or.inl ⟨ch, by rw [heq]; exact List.mem_append_left _ hch, hinf⟩
  · by_cases hlen :
      (trimStr (chunkFold chunkSize (splitSentences (cleanupText text))).current).length > 100
    · refine Or.inl ⟨trimStr (chunkFold chunkSize (splitSentences (cleanupText text))).current,
        ?_, infix_trimStr hwf hcur⟩
      rw [heq]
      exact List.mem_append_right _ (by rw [if_pos hlen]; simp)
    · exact Or.inr ⟨hcur, Nat.le_of_not_lt hlen⟩

/-- C1 witness: the amended theorem instantiated on the 131-character
example with `chunkSize = 100`. -/
theorem claim1_witness :
    (cleanupText chunkExample).length > 100 ∧
    chunkTextSemantic chunkExample 100 10
      = (chunkFold 100 (splitSentences (cleanupText chunkExample))).chunks ++
        (if (trimStr (chunkFold 100 (splitSentences (cleanupText chunkExample))).current).length
            > 100
         then [trimStr (chunkFold 100 (splitSentences (cleanupText chunkExample))).current]
         else []) :=
  ⟨by decide, (claim1_amended_coverage chunkExample 100 10 (by decide)).1⟩
